import Mathlib

/-!
Verification development for the skottie text-layer font/glyph resolution
subsystem (`modules/skottie/src/layers/TextLayer.cpp`).

The C++ source is shallowly embedded: pure functions become Lean functions,
the mutating passes over the font registry become explicit state-passing
functions, JSON inputs become inductive data mirroring the shapes the code
inspects, and the external collaborators (JSON path evaluator, font manager,
custom-typeface builder, registry container) are modelled as oracles or from
the specification where their code is outside the bundle.
-/

set_option autoImplicit false

namespace Skottie

/-! ### Font weights and slants (SkFontStyle) -/

def kThin_Weight       : Nat := 100
def kExtraLight_Weight : Nat := 200
def kLight_Weight      : Nat := 300
def kNormal_Weight     : Nat := 400
def kMedium_Weight     : Nat := 500
def kSemiBold_Weight   : Nat := 600
def kBold_Weight       : Nat := 700
def kExtraBold_Weight  : Nat := 800
def kBlack_Weight      : Nat := 900
def kExtraBlack_Weight : Nat := 1000

inductive Slant where
  | upright
  | italic
  | oblique
  deriving DecidableEq

/-- Result of `FontStyle`: the weight/slant pair of the returned
`SkFontStyle` (width is always normal) plus the residual text passed to the
warning log, `none` when no warning fires. -/
structure FontStyleResult where
  weight  : Nat
  slant   : Slant
  warning : Option String
  deriving DecidableEq

/-- The weight table `gWeightMap`, in source order (order matters: the scan
takes the first entry whose name is a prefix of the style string). -/
def gWeightMap : List (String × Nat) :=
  [ ("Regular"   , kNormal_Weight     ),
    ("Medium"    , kMedium_Weight     ),
    ("Bold"      , kBold_Weight       ),
    ("Light"     , kLight_Weight      ),
    ("Black"     , kBlack_Weight      ),
    ("Thin"      , kThin_Weight       ),
    ("Extra"     , kExtraBold_Weight  ),
    ("ExtraBold" , kExtraBold_Weight  ),
    ("ExtraLight", kExtraLight_Weight ),
    ("ExtraBlack", kExtraBlack_Weight ),
    ("SemiBold"  , kSemiBold_Weight   ),
    ("Hairline"  , kThin_Weight       ),
    ("Normal"    , kNormal_Weight     ),
    ("Plain"     , kNormal_Weight     ),
    ("Standard"  , kNormal_Weight     ),
    ("Roman"     , kNormal_Weight     ),
    ("Heavy"     , kBlack_Weight      ),
    ("Demi"      , kSemiBold_Weight   ),
    ("DemiBold"  , kSemiBold_Weight   ),
    ("Ultra"     , kExtraBold_Weight  ),
    ("UltraBold" , kExtraBold_Weight  ),
    ("UltraBlack", kExtraBlack_Weight ),
    ("UltraHeavy", kExtraBlack_Weight ),
    ("UltraLight", kExtraLight_Weight ) ]

/-- The slant table `gSlantMap`, in source order. -/
def gSlantMap : List (String × Slant) :=
  [ ("Italic" , Slant.italic  ),
    ("Oblique", Slant.oblique ) ]

/-- `strncmp(style, name, strlen(name)) == 0` followed by `style += name_len`:
if `tok` is a character-wise prefix of `s`, return the remainder. -/
def dropPrefixChars : List Char → List Char → Option (List Char)
  | [], s => some s
  | _ :: _, [] => none
  | c :: toks, d :: s => if c = d then dropPrefixChars toks s else none

/-- The weight loop of `FontStyle`: first table entry whose name is a prefix
of the style string wins; default weight is normal. Returns the chosen
weight and the unconsumed remainder. -/
def scanWeight : List (String × Nat) → List Char → Nat × List Char
  | [], s => (kNormal_Weight, s)
  | (tok, w) :: rest, s =>
    match dropPrefixChars tok.data s with
    | some s' => (w, s')
    | none => scanWeight rest s

/-- `FontStyle` (TextLayer.cpp lines 30-95): prefix-match a weight token,
then — only if text remains — exact-match (`strcmp`) the whole remainder
against a slant token; any text still unconsumed triggers a warning. -/
def FontStyle (style : String) : FontStyleResult :=
  let ws := scanWeight gWeightMap style.data
  let ss :=
    if ws.2.isEmpty then (Slant.upright, ws.2)
    else
      match gSlantMap.find? (fun p => p.1.data == ws.2) with
      | some p => (p.2, ([] : List Char))
      | none => (Slant.upright, ws.2)
  { weight  := ws.1
    slant   := ss.1
    warning := if ss.2.isEmpty then none else some (String.mk ss.2) }

/-! ### Glyph outline extraction (`parse_glyph_path`) -/

/-- A vector path, modelled as its list of points (rational coordinates).
`SkPath::addPath` concatenates, `SkPath::transform` with a scale matrix
scales every point. -/
abbrev Path : Type := List (ℚ × ℚ)

/-- One entry of a group's `"it"` array. `item pathResult animators` records
the outcome of evaluating the item's `"ks"` through
`AnimationBuilder::attachPath` in an `AutoScope`: the optional path node and
the number of animators the scope released. (The path evaluator is an
external collaborator; its outcome is carried in the data.) -/
inductive JItem where
  | null
  | item (pathResult : Option Path) (animators : Nat)

/-- One entry of the `"shapes"` array: JSON null, a group object without an
`"it"` array, or a group with its items. -/
inductive JGroup where
  | null
  | noIt
  | grp (items : List JItem)

/-- The `"data"` argument of `parse_glyph_path`: a null object pointer, an
object without a `"shapes"` array, or the list of shape groups. -/
inductive GlyphData where
  | null
  | noShapes
  | shapes (groups : List JGroup)

/-- The inner item loop of `parse_glyph_path`: a null item, a missing path
node, or a non-empty animator list fails; otherwise the item's path is
appended to the accumulator. -/
def parseItems : List JItem → Path → Option Path
  | [], acc => some acc
  | JItem.null :: _, _ => none
  | JItem.item p a :: rest, acc =>
    match p with
    | none => none
    | some pth => if a = 0 then parseItems rest (acc ++ pth) else none

/-- The outer group loop of `parse_glyph_path`: a null group or a group
without `"it"` fails; otherwise its items are processed in order. -/
def parseGroups : List JGroup → Path → Option Path
  | [], acc => some acc
  | JGroup.null :: _, _ => none
  | JGroup.noIt :: _, _ => none
  | JGroup.grp items :: rest, acc =>
    match parseItems items acc with
    | some acc' => parseGroups rest acc'
    | none => none

/-- `parse_glyph_path` (TextLayer.cpp lines 97-159). `none` models the
`false` return (the output path is only used on success); `some p` models
`true` with accumulated path `p`. A null `jdata` fails; an object without
`"shapes"` succeeds with the untouched (empty) path. -/
def parse_glyph_path (jdata : GlyphData) : Option Path :=
  match jdata with
  | GlyphData.null => none
  | GlyphData.noShapes => some ∅
  | GlyphData.shapes groups => parseGroups groups ∅

/-! ### Font registry and typefaces -/

/-- A typeface, abstracted by provenance: external font bytes
(`makeFromData` over the resource provider's buffer), a system family/style
match, the legacy system default, or a custom typeface detached from a
glyph builder. -/
inductive Typeface where
  | fromData (name path : String)
  | familyStyleMatch (family : String) (style : FontStyleResult)
  | legacyDefault (style : FontStyleResult)
  | custom (glyphs : List (Nat × ℚ × Path))
  deriving DecidableEq

/-- One glyph submitted to `SkCustomTypefaceBuilder::setGlyph`:
glyph id, advance, path. -/
abbrev GlyphEntry : Type := Nat × ℚ × Path

/-- `AnimationBuilder::FontInfo`. `fCustomBuilder` is the builder's list of
submitted glyphs, in submission order. -/
structure FontInfo where
  fFamily        : String
  fStyle         : String
  fPath          : String
  fAscent        : ℚ
  fTypeface      : Option Typeface
  fCustomBuilder : List GlyphEntry
  deriving DecidableEq

/-- `FontInfo::matches` (TextLayer.cpp lines 163-166): exact string equality
on family and style. -/
def FontInfo.matches (fi : FontInfo) (family style : String) : Bool :=
  fi.fFamily == family && fi.fStyle == style

/-- Modelled from the spec: the font registry `fFonts` (an `SkTHashMap`
whose code is outside the bundle) is specified as an insertion-ordered
mapping from declared font name to `FontInfo`, with deterministic
insertion-order iteration; we embed it as an association list with unique
keys maintained by `regSet`. -/
abbrev Registry : Type := List (String × FontInfo)

/-- Modelled from the spec: `set` of the registry map — replace the value
in place when the key is present, append otherwise. -/
def regSet : Registry → String → FontInfo → Registry
  | [], n, fi => [(n, fi)]
  | p :: rest, n, fi =>
    if p.1 = n then (n, fi) :: rest else p :: regSet rest n fi

/-- Modelled from the spec: point lookup by declared name (`findFont`). -/
def regFind : Registry → String → Option FontInfo
  | [], _ => none
  | p :: rest, n => if p.1 = n then some p.2 else regFind rest n

/-- The registry's keys, in iteration order. -/
def regKeys (r : Registry) : List String := r.map Prod.fst

/-- Log levels of the messages the passes emit (`Logger::Level`). -/
inductive LogLevel where
  | warning
  | error
  deriving DecidableEq

/-! ### Font-list parsing (`parseFonts`, first pass) -/

/-- One font-list object's fields as the code reads them: each field is
`none` when missing or not of the expected JSON type. -/
structure JFont where
  fName   : Option String
  fFamily : Option String
  fStyle  : Option String
  fPath   : Option String
  ascent  : Option ℚ
  deriving DecidableEq

/-- One entry of the `"list"` array: JSON null or a font object. -/
inductive JFontEntry where
  | null
  | font (f : JFont)
  deriving DecidableEq

/-- The validity test of the first pass: `fName`, `fFamily` and `fStyle`
must be present, string-valued and non-empty. -/
def validFont (f : JFont) : Bool :=
  (match f.fName with | some s => s ≠ "" | none => false) &&
  (match f.fFamily with | some s => s ≠ "" | none => false) &&
  (match f.fStyle with | some s => s ≠ "" | none => false)

/-- The `FontInfo` built for a valid declaration: family/style/path strings,
`ascent` defaulted to 0 (`ParseDefault`), null typeface placeholder, fresh
custom builder. -/
def fontInfoOf (f : JFont) : FontInfo :=
  { fFamily        := f.fFamily.getD ""
    fStyle         := f.fStyle.getD ""
    fPath          := f.fPath.getD ""
    fAscent        := f.ascent.getD 0
    fTypeface      := none
    fCustomBuilder := [] }

/-- One step of the first pass of `parseFonts` (lines 203-229): null entries
are skipped silently, invalid declarations log an error and create no entry,
valid ones are `set` into the registry under their name. -/
def processFontEntry (st : Registry × List LogLevel) (e : JFontEntry) :
    Registry × List LogLevel :=
  match e with
  | JFontEntry.null => st
  | JFontEntry.font f =>
    if validFont f then (regSet st.1 (f.fName.getD "") (fontInfoOf f), st.2)
    else (st.1, st.2 ++ [LogLevel.error])

/-- The first pass of `parseFonts` over the `"list"` array: fold
`processFontEntry` from an empty registry, collecting the log. -/
def parseFontList (entries : List JFontEntry) : Registry × List LogLevel :=
  entries.foldl processFontEntry ([], [])

/-! ### Native typeface resolution (`resolveNativeTypefaces`) -/

/-- The external font services, as oracles: `makeFromData` composes the
resource provider's `loadFont(name, path)` with `SkFontMgr::makeFromData`
(`none` = no bytes or no typeface), `matchFamilyStyle` and
`legacyMakeTypeface` are the system font manager calls. -/
structure FontMgr where
  makeFromData       : String → String → Option Typeface
  matchFamilyStyle   : String → FontStyleResult → Option Typeface
  legacyMakeTypeface : FontStyleResult → Option Typeface

/-- The body of the `resolveNativeTypefaces` foreach for one font
(lines 251-283): skip already-resolved fonts, else try external data, then
system family/style match, then the legacy default. Returns the updated
info and whether this font ended the pass unresolved. -/
def resolveNativeOne (m : FontMgr) (name : String) (fi : FontInfo) :
    FontInfo × Bool :=
  match fi.fTypeface with
  | some _ => (fi, false)
  | none =>
    match m.makeFromData name fi.fPath with
    | some t => ({ fi with fTypeface := some t }, false)
    | none =>
      match m.matchFamilyStyle fi.fFamily (FontStyle fi.fStyle) with
      | some t => ({ fi with fTypeface := some t }, false)
      | none =>
        let t := m.legacyMakeTypeface (FontStyle fi.fStyle)
        ({ fi with fTypeface := t }, t.isNone)

/-- `resolveNativeTypefaces` (lines 248-286): resolve every font in
iteration order; success iff no font remained unresolved. -/
def resolveNativeTypefaces (m : FontMgr) (r : Registry) : Registry × Bool :=
  (r.map (fun p => (p.1, (resolveNativeOne m p.1 p.2).1)),
   r.all (fun p => !(resolveNativeOne m p.1 p.2).2))

/-! ### Embedded typeface resolution (`resolveEmbeddedTypefaces`) -/

/-- The factor `kPtScale = 0.01f` (line 366), in exact arithmetic. -/
def kPtScale : ℚ := 1 / 100

/-- `SkPath::transform(SkMatrix::Scale(s, s))`: scale every point. -/
def scalePath (s : ℚ) (p : Path) : Path :=
  p.map (fun q => (s * q.1, s * q.2))

/-- One entry of the `"chars"` array as the code reads it. `ch` is the
decoded character string (a Lean `String` is its list of code points, so
`CountUTF8 == 1` is `data.length == 1`); `data` is the glyph outline
argument, `GlyphData.null` when the `"data"` key is absent. -/
structure JChar where
  ch      : Option String
  fFamily : Option String
  style   : Option String
  data    : GlyphData
  w       : Option ℚ

/-- One entry of the `"chars"` array: JSON null or a glyph object. -/
inductive JCharEntry where
  | null
  | char (c : JChar)

/-- The registry scan of `resolveEmbeddedTypefaces` (lines 344-349): a
foreach with no early break that assigns `current_font` at every match, so
the LAST matching entry (by iteration index) survives. -/
def findMatchIdxAux (fam sty : String) :
    List (String × FontInfo) → Nat → Option Nat → Option Nat
  | [], _, acc => acc
  | p :: rest, i, acc =>
    findMatchIdxAux fam sty rest (i + 1)
      (if p.2.matches fam sty then some i else acc)

/-- Index (into the registry, iteration order) of the font the scan leaves
in `current_font`; `none` when no entry matches. -/
def findMatchIdx (r : Registry) (fam sty : String) : Option Nat :=
  findMatchIdxAux fam sty r 0 none

/-- The `current_font` cache logic (line 342): reuse the cached font if it
still matches, else rescan the registry. -/
def resolveFontIdx (r : Registry) (cache : Option Nat) (fam sty : String) :
    Option Nat :=
  match cache with
  | some i =>
    match r[i]? with
    | some p => if p.2.matches fam sty then some i else findMatchIdx r fam sty
    | none => findMatchIdx r fam sty
  | none => findMatchIdx r fam sty

/-- One iteration of the glyph loop of `resolveEmbeddedTypefaces`
(lines 304-372), as a function of the registry and the `current_font`
cache: null entries and entries without `"ch"` are skipped silently;
missing family/style or a multi-code-point character logs "Invalid glyph";
a code point beyond the glyph-ID range logs "Unsupported glyph ID"; a
failed registry scan logs "Font not found"; a failed outline parse skips
the glyph; otherwise the scaled path and advance are submitted to the
owning font's custom builder. -/
def processChar (r : Registry) (cache : Option Nat) (e : JCharEntry) :
    Registry × Option Nat × List LogLevel :=
  match e with
  | JCharEntry.null => (r, cache, [])
  | JCharEntry.char c =>
    match c.ch with
    | none => (r, cache, [])
    | some ch =>
      match c.fFamily, c.style with
      | some fam, some sty =>
        match ch.data with
        | [u] =>
          if u.toNat < 65536 then
            match resolveFontIdx r cache fam sty with
            | none => (r, none, [LogLevel.error])
            | some i =>
              match parse_glyph_path c.data with
              | none => (r, some i, [])
              | some path =>
                match r[i]? with
                | some (name, fi) =>
                  (r.set i (name, { fi with fCustomBuilder :=
                      fi.fCustomBuilder ++
                        [(u.toNat, c.w.getD 0 * kPtScale,
                          scalePath kPtScale path)] }),
                   some i, [])
                | none => (r, some i, [])
          else (r, cache, [LogLevel.error])
        | _ => (r, cache, [LogLevel.error])
      | _, _ => (r, cache, [LogLevel.error])

/-- State threaded through the glyph loop. -/
structure EmbedState where
  reg   : Registry
  cache : Option Nat
  log   : List LogLevel

/-- Fold step of the glyph loop. -/
def embedStep (st : EmbedState) (e : JCharEntry) : EmbedState :=
  let res := processChar st.reg st.cache e
  ⟨res.1, res.2.1, st.log ++ res.2.2⟩

/-- Modelled from the spec: `SkCustomTypefaceBuilder::detach` (code outside
the bundle) finalizes the accumulated glyphs into a typeface; a builder
with zero glyphs submitted yields a failed/empty result. -/
def detachBuilder (glyphs : List GlyphEntry) : Option Typeface :=
  match glyphs with
  | [] => none
  | _ :: _ => some (Typeface.custom glyphs)

/-- The final pass of `resolveEmbeddedTypefaces` (lines 374-386): commit
each unresolved font's custom builder; success iff every font ends
resolved. -/
def finalizeEmbedded (r : Registry) : Registry × Bool :=
  let r' := r.map (fun p =>
    match p.2.fTypeface with
    | some _ => p
    | none => (p.1, { p.2 with fTypeface := detachBuilder p.2.fCustomBuilder }))
  (r', r'.all (fun p => p.2.fTypeface.isSome))

/-- `resolveEmbeddedTypefaces` (lines 288-387): run the glyph loop over the
`"chars"` array, then commit custom typefaces. -/
def resolveEmbeddedTypefaces (chars : List JCharEntry) (r : Registry) :
    Registry × Bool :=
  finalizeEmbedded (chars.foldl embedStep ⟨r, none, []⟩).reg

/-! ### Orchestration (`parseFonts`) -/

/-- Which resolution passes ran, in order. -/
inductive Pass where
  | embedded
  | native
  deriving DecidableEq

/-- `parseFonts` (lines 177-246): parse the font list (absent list: no-op),
then — when glyph data is present and the builder prefers embedded fonts —
try embedded resolution and stop if it fully succeeds; otherwise run native
resolution and stop if it succeeds; finally, when glyph data is present and
embedded fonts were NOT preferred, run embedded resolution as a best-effort
fallback. Returns the final registry and the passes invoked, in order. -/
def parseFonts (m : FontMgr) (preferEmbedded : Bool)
    (jlist : Option (List JFontEntry)) (jchars : Option (List JCharEntry)) :
    Registry × List Pass :=
  match jlist with
  | none => ([], [])
  | some entries =>
    let r0 := (parseFontList entries).1
    match jchars, preferEmbedded with
    | some chars, true =>
      let er := resolveEmbeddedTypefaces chars r0
      if er.2 then (er.1, [Pass.embedded])
      else ((resolveNativeTypefaces m er.1).1, [Pass.embedded, Pass.native])
    | jc, pe =>
      let nr := resolveNativeTypefaces m r0
      if nr.2 then (nr.1, [Pass.native])
      else
        match jc, pe with
        | some chars, false =>
          ((resolveEmbeddedTypefaces chars nr.1).1, [Pass.native, Pass.embedded])
        | _, _ => (nr.1, [Pass.native])

/-! ### Derived inputs used by the theorems -/

/-- The weight tokens whose table scan consumes the whole token: every
`gWeightMap` entry except those shadowed by a shorter token earlier in the
table (`"Extra"`, `"Demi"` and `"Ultra"` shadow their extensions). -/
def goodWeightTokens : List (String × Nat) :=
  [ ("Regular" , kNormal_Weight    ),
    ("Medium"  , kMedium_Weight    ),
    ("Bold"    , kBold_Weight      ),
    ("Light"   , kLight_Weight     ),
    ("Black"   , kBlack_Weight     ),
    ("Thin"    , kThin_Weight      ),
    ("Extra"   , kExtraBold_Weight ),
    ("SemiBold", kSemiBold_Weight  ),
    ("Hairline", kThin_Weight      ),
    ("Normal"  , kNormal_Weight    ),
    ("Plain"   , kNormal_Weight    ),
    ("Standard", kNormal_Weight    ),
    ("Roman"   , kNormal_Weight    ),
    ("Heavy"   , kBlack_Weight     ),
    ("Demi"    , kSemiBold_Weight  ),
    ("Ultra"   , kExtraBold_Weight ) ]

/-- The optional slant suffixes and the slant each denotes. -/
def slantSuffixes : List (String × Slant) :=
  [ (""       , Slant.upright ),
    ("Italic" , Slant.italic  ),
    ("Oblique", Slant.oblique ) ]

/-- All concatenations of an unshadowed weight token with an optional slant
suffix, paired with the expected parse result (no warning). -/
def goodStyleCombos : List (String × FontStyleResult) :=
  goodWeightTokens.flatMap (fun w =>
    slantSuffixes.map (fun s => (w.1 ++ s.1, ⟨w.2, s.2, none⟩)))

/-- A font-service oracle that resolves nothing, for concrete witnesses. -/
def trivialFontMgr : FontMgr :=
  ⟨fun _ _ => none, fun _ _ => none, fun _ => none⟩

/-- A concrete registered font used by the glyph-scaling witness. -/
def fiW : FontInfo :=
  { fFamily := "Fam", fStyle := "Sty", fPath := "", fAscent := 0,
    fTypeface := none, fCustomBuilder := [] }

/-- A concrete glyph record with advance `w = 32.67` used by the
glyph-scaling witness. -/
def cW : JChar :=
  { ch := some "t", fFamily := some "Fam", style := some "Sty",
    data := GlyphData.noShapes, w := some (3267 / 100) }

end Skottie

/-! ## Theorems -/

namespace Skottie

/-- C1 counterexample: at the concrete input "missing object" (null
`jdata`), `parse_glyph_path` FAILS — it does not succeed with an empty
path as the claim states. -/
theorem C1_counterexample : parse_glyph_path GlyphData.null = none := rfl

/-- C1 (amended): a missing (null) input object makes `parse_glyph_path`
fail; it is a present object without the `"shapes"` key that succeeds and
produces an empty path (the space/blank glyph). -/
theorem C1_amended_null_fails_noShapes_empty :
    parse_glyph_path GlyphData.null = none ∧
    parse_glyph_path GlyphData.noShapes = some ∅ :=
  ⟨rfl, rfl⟩

/-- C2 counterexample: the style string "ExtraLight" — a single weight
token of the parser's table — does not parse to `ExtraLight` weight: the
earlier table entry "Extra" matches first and yields `ExtraBold` weight,
leaving residual "Light". -/
theorem C2_counterexample :
    (FontStyle "ExtraLight").weight = kExtraBold_Weight ∧
    kExtraBold_Weight ≠ kExtraLight_Weight ∧
    (FontStyle "UltraBlack").weight = kExtraBold_Weight ∧
    kExtraBold_Weight ≠ kExtraBlack_Weight := by
  refine ⟨by decide, by decide, by decide, by decide⟩

/-- C2 (amended): for every style string that is the concatenation of a
weight token whose table scan consumes the entire token (all weight tokens
except the extensions shadowed by the earlier "Extra"/"Demi"/"Ultra"
entries) and an optional slant token, `FontStyle` returns exactly the
(weight, slant) pair those tokens denote, with no warning. -/
theorem FontStyle_good_token_combos :
    ∀ p ∈ goodStyleCombos, FontStyle p.1 = p.2 := by decide

/-- Witness for `FontStyle_good_token_combos` at the concrete combo
"BoldItalic". -/
theorem FontStyle_good_token_combos_witness :
    FontStyle "BoldItalic" = ⟨kBold_Weight, Slant.italic, none⟩ :=
  FontStyle_good_token_combos ("BoldItalic", ⟨kBold_Weight, Slant.italic, none⟩)
    (by decide)

/-- C3 counterexample: on "BoldItalicFoo" the slant loop compares the whole
remainder "ItalicFoo" with `strcmp`, so it does NOT recognize Italic: the
result is upright slant with warning residual "ItalicFoo", not italic slant
with residual "Foo". -/
theorem C3_counterexample :
    (FontStyle "BoldItalicFoo").slant = Slant.upright ∧
    Slant.upright ≠ Slant.italic ∧
    (FontStyle "BoldItalicFoo").warning = some "ItalicFoo" ∧
    some "ItalicFoo" ≠ some "Foo" := by
  refine ⟨by decide, by decide, by decide, by decide⟩

/-- C3 (amended): `FontStyle "BoldItalicFoo"` returns weight Bold, slant
Upright, and warns about the residual text "ItalicFoo" (a slant token must
match the entire remaining suffix exactly). -/
theorem FontStyle_BoldItalicFoo :
    FontStyle "BoldItalicFoo" =
      ⟨kBold_Weight, Slant.upright, some "ItalicFoo"⟩ := by decide

/-- If some item of the `"it"` list yields no path node or a non-empty
animator set, the item loop fails from any accumulator. -/
theorem parseItems_eq_none_of_bad {items : List JItem} {p : Option Path}
    {a : Nat} (hi : JItem.item p a ∈ items) (hbad : p = none ∨ a ≠ 0) :
    ∀ acc, parseItems items acc = none := by
  induction items with
  | nil => cases hi
  | cons x rest ih =>
    intro acc
    cases hi with
    | head =>
      cases hbad with
      | inl h => subst h; rfl
      | inr h =>
        cases p with
        | none => rfl
        | some pth => simp [parseItems, h]
    | tail _ hmem =>
      cases x with
      | null => rfl
      | item q b =>
        cases q with
        | none => rfl
        | some pth =>
          by_cases hb : b = 0
          · simp [parseItems, hb, ih hmem]
          · simp [parseItems, hb]

/-- If some group contains a bad item, the group loop fails from any
accumulator. -/
theorem parseGroups_eq_none_of_bad {groups : List JGroup}
    {items : List JItem} {p : Option Path} {a : Nat}
    (hg : JGroup.grp items ∈ groups) (hi : JItem.item p a ∈ items)
    (hbad : p = none ∨ a ≠ 0) :
    ∀ acc, parseGroups groups acc = none := by
  induction groups with
  | nil => cases hg
  | cons g rest ih =>
    intro acc
    cases hg with
    | head => simp [parseGroups, parseItems_eq_none_of_bad hi hbad acc]
    | tail _ hmem =>
      cases g with
      | null => rfl
      | noIt => rfl
      | grp its =>
        cases h : parseItems its acc with
        | none => simp [parseGroups, h]
        | some acc' => simp [parseGroups, h, ih hmem]

/-- C6: if any shape item's `"ks"` evaluation yields no path or any active
animator (a time-varying path), the entire glyph outline extraction fails,
regardless of the other items. -/
theorem parse_glyph_path_fails_on_nonstatic (groups : List JGroup)
    (items : List JItem) (p : Option Path) (a : Nat)
    (hg : JGroup.grp items ∈ groups) (hi : JItem.item p a ∈ items)
    (hbad : p = none ∨ a ≠ 0) :
    parse_glyph_path (GlyphData.shapes groups) = none :=
  parseGroups_eq_none_of_bad hg hi hbad ∅

/-- Witness for `parse_glyph_path_fails_on_nonstatic`: one static-path item
would succeed, but an item whose `"ks"` produced one animator makes the
whole extraction fail. -/
theorem parse_glyph_path_fails_on_nonstatic_witness :
    parse_glyph_path
      (GlyphData.shapes
        [JGroup.grp [JItem.item (some [((1 : ℚ), (2 : ℚ))]) 0,
                     JItem.item (some ∅) 1]]) = none :=
  parse_glyph_path_fails_on_nonstatic _ _ (some ∅) 1 (List.Mem.head _)
    (List.Mem.tail _ (List.Mem.head _)) (Or.inr (by decide))

/-- When no entry of `l` matches, the scan leaves the accumulator alone. -/
theorem findMatchIdxAux_no_match {fam sty : String}
    {l : List (String × FontInfo)}
    (h : ∀ q ∈ l, q.2.matches fam sty = false) :
    ∀ (i : Nat) (acc : Option Nat), findMatchIdxAux fam sty l i acc = acc := by
  induction l with
  | nil => intro i acc; rfl
  | cons x rest ih =>
    intro i acc
    have hx := h x (List.Mem.head _)
    rw [findMatchIdxAux, hx]
    exact ih (fun q hq => h q (List.Mem.tail _ hq)) (i + 1) acc

/-- The scan returns the index of the last matching entry: decompose the
list around the last match `p` (nothing after it matches). -/
theorem findMatchIdxAux_last {fam sty : String} {p : String × FontInfo}
    {l₂ : List (String × FontInfo)} (hp : p.2.matches fam sty = true)
    (h₂ : ∀ q ∈ l₂, q.2.matches fam sty = false) :
    ∀ (l₁ : List (String × FontInfo)) (i : Nat) (acc : Option Nat),
      findMatchIdxAux fam sty (l₁ ++ p :: l₂) i acc = some (i + l₁.length) := by
  intro l₁
  induction l₁ with
  | nil =>
    intro i acc
    rw [List.nil_append, findMatchIdxAux, hp]
    rw [findMatchIdxAux_no_match h₂]
    simp
  | cons x rest ih =>
    intro i acc
    rw [List.cons_append, findMatchIdxAux, ih (i + 1)]
    congr 1
    simp
    omega

/-- C4 counterexample: a registry with two entries both matching
("Fam", "Sty"); the scan used by the embedded-glyph resolver returns the
SECOND (index 1) entry, not the first, and the two entries differ. -/
theorem C4_counterexample :
    findMatchIdx
      [("A", ⟨"Fam", "Sty", "", 0, none, []⟩),
       ("B", ⟨"Fam", "Sty", "pathB", 1, none, []⟩)] "Fam" "Sty" = some 1 ∧
    FontInfo.matches ⟨"Fam", "Sty", "", 0, none, []⟩ "Fam" "Sty" = true ∧
    (⟨"Fam", "Sty", "", 0, none, []⟩ : FontInfo) ≠
      ⟨"Fam", "Sty", "pathB", 1, none, []⟩ := by
  refine ⟨by decide, by decide, by decide⟩

/-- C4 (amended): for every registry and (family, style) query, the scan of
the embedded-glyph resolver returns the LAST registered entry, in iteration
(insertion) order, whose family and style strings both match exactly — the
foreach has no early break, so later matches overwrite earlier ones. -/
theorem findMatchIdx_returns_last_match (fam sty : String)
    (l₁ l₂ : List (String × FontInfo)) (p : String × FontInfo)
    (hp : p.2.matches fam sty = true)
    (h₂ : ∀ q ∈ l₂, q.2.matches fam sty = false) :
    findMatchIdx (l₁ ++ p :: l₂) fam sty = some l₁.length := by
  rw [findMatchIdx, findMatchIdxAux_last hp h₂ l₁ 0 none, Nat.zero_add]

/-- Witness for `findMatchIdx_returns_last_match`: with a matching entry at
index 0 and the last match at index 1, the scan returns index 1. -/
theorem findMatchIdx_returns_last_match_witness :
    findMatchIdx
      [("A", ⟨"Fam", "Sty", "pA", 0, none, []⟩),
       ("B", ⟨"Fam", "Sty", "pB", 1, none, []⟩)] "Fam" "Sty" = some 1 :=
  findMatchIdx_returns_last_match "Fam" "Sty"
    [("A", ⟨"Fam", "Sty", "pA", 0, none, []⟩)] []
    ("B", ⟨"Fam", "Sty", "pB", 1, none, []⟩) (by decide) (by simp)

/-- Lookup after `regSet`: the set key yields the new value, other keys are
untouched. -/
theorem regFind_regSet (r : Registry) (n m : String) (fi : FontInfo) :
    regFind (regSet r n fi) m = if m = n then some fi else regFind r m := by
  induction r with
  | nil =>
    by_cases h : m = n
    · simp [regSet, regFind, h]
    · simp [regSet, regFind, h, Ne.symm h]
  | cons p rest ih =>
    by_cases hp : p.1 = n
    · by_cases hm : m = n
      · simp [regSet, regFind, hp, hm]
      · simp [regSet, regFind, hp, hm, Ne.symm hm]
    · by_cases hm : p.1 = m
      · have hmn : ¬ m = n := by rw [← hm]; exact hp
        simp [regSet, regFind, hp, hm, hmn]
      · simp [regSet, regFind, hp, hm, ih]

/-- A valid declaration's name field is present (and `getD ""` recovers
it). -/
theorem validFont_name {f : JFont} (h : validFont f = true) :
    f.fName = some (f.fName.getD "") := by
  unfold validFont at h
  cases hn : f.fName with
  | none => rw [hn] at h; simp at h
  | some s => simp

/-- Step equation of the first pass on a valid declaration. -/
theorem processFontEntry_font_valid (r : Registry) (lg : List LogLevel)
    {f : JFont} (h : validFont f = true) :
    processFontEntry (r, lg) (JFontEntry.font f) =
      (regSet r (f.fName.getD "") (fontInfoOf f), lg) := by
  simp [processFontEntry, h]

/-- Step equation of the first pass on an invalid declaration. -/
theorem processFontEntry_font_invalid (r : Registry) (lg : List LogLevel)
    {f : JFont} (h : validFont f = false) :
    processFontEntry (r, lg) (JFontEntry.font f) =
      (r, lg ++ [LogLevel.error]) := by
  simp [processFontEntry, h]

/-- Name lookup across the first pass of `parseFonts`, from any starting
state: a name is present afterwards iff it was present before or some
valid declaration in the processed entries carries it. -/
theorem parseFontList_find_aux (entries : List JFontEntry) :
    ∀ (r : Registry) (lg : List LogLevel) (n : String),
      (regFind (entries.foldl processFontEntry (r, lg)).1 n).isSome = true ↔
        ((regFind r n).isSome = true ∨
         ∃ f, JFontEntry.font f ∈ entries ∧ validFont f = true ∧
              f.fName = some n) := by
  induction entries with
  | nil => simp
  | cons e rest ih =>
    intro r lg n
    rw [List.foldl_cons]
    cases e with
    | null =>
      rw [show processFontEntry (r, lg) JFontEntry.null = (r, lg) from rfl, ih]
      constructor
      · rintro (h | ⟨f, hf, hfv, hfn⟩)
        · exact Or.inl h
        · exact Or.inr ⟨f, List.Mem.tail _ hf, hfv, hfn⟩
      · rintro (h | ⟨f, hf, hfv, hfn⟩)
        · exact Or.inl h
        · cases hf with
          | tail _ hmem => exact Or.inr ⟨f, hmem, hfv, hfn⟩
    | font f =>
      by_cases hv : validFont f = true
      · rw [processFontEntry_font_valid r lg hv, ih, regFind_regSet]
        by_cases hn : n = f.fName.getD ""
        · rw [if_pos hn]
          constructor
          · intro _
            refine Or.inr ⟨f, List.Mem.head _, hv, ?_⟩
            rw [validFont_name hv, ← hn]
          · intro _
            exact Or.inl rfl
        · rw [if_neg hn]
          constructor
          · rintro (h | ⟨g, hg, hgv, hgn⟩)
            · exact Or.inl h
            · exact Or.inr ⟨g, List.Mem.tail _ hg, hgv, hgn⟩
          · rintro (h | ⟨g, hg, hgv, hgn⟩)
            · exact Or.inl h
            · cases hg with
              | head =>
                exfalso
                apply hn
                rw [validFont_name hgv] at hgn
                exact (Option.some_inj.mp hgn).symm
              | tail _ hmem => exact Or.inr ⟨g, hmem, hgv, hgn⟩
      · rw [processFontEntry_font_invalid r lg (Bool.eq_false_iff.mpr hv), ih]
        constructor
        · rintro (h | ⟨g, hg, hgv, hgn⟩)
          · exact Or.inl h
          · exact Or.inr ⟨g, List.Mem.tail _ hg, hgv, hgn⟩
        · rintro (h | ⟨g, hg, hgv, hgn⟩)
          · exact Or.inl h
          · cases hg with
            | head => exact absurd hgv hv
            | tail _ hmem => exact Or.inr ⟨g, hmem, hgv, hgn⟩

/-- C7: a font-list declaration with a missing or empty name, family or
style field logs exactly one error and creates no registry entry at all;
consequently a name is in the registry after the first pass iff some VALID
declaration carries it. -/
theorem parseFonts_invalid_entry_skipped :
    (∀ (r : Registry) (lg : List LogLevel) (f : JFont),
       validFont f = false →
       processFontEntry (r, lg) (JFontEntry.font f) =
         (r, lg ++ [LogLevel.error])) ∧
    (∀ (entries : List JFontEntry) (n : String),
       (regFind (parseFontList entries).1 n).isSome = true ↔
         ∃ f, JFontEntry.font f ∈ entries ∧ validFont f = true ∧
              f.fName = some n) := by
  constructor
  · intro r lg f h
    simp [processFontEntry, h]
  · intro entries n
    rw [parseFontList, parseFontList_find_aux]
    simp [regFind]

/-- Witness for `parseFonts_invalid_entry_skipped`: a declaration missing
`fFamily` is dropped with an error; a complete declaration is registered. -/
theorem parseFonts_invalid_entry_skipped_witness :
    processFontEntry ([], [])
        (JFontEntry.font ⟨some "F1", none, some "Regular", none, some 75⟩) =
      ([], [LogLevel.error]) ∧
    (regFind (parseFontList
        [JFontEntry.font ⟨some "F1", some "Roboto", some "Regular",
                          none, some 75⟩]).1 "F1").isSome = true :=
  ⟨parseFonts_invalid_entry_skipped.1 [] [] _ (by decide),
   (parseFonts_invalid_entry_skipped.2 _ "F1").mpr
     ⟨_, List.Mem.head _, by decide, rfl⟩⟩

/-- Processing entries none of which is a valid declaration named `n`
leaves the lookup of `n` unchanged. -/
theorem parseFontList_find_untouched {n : String} (entries : List JFontEntry)
    (h : ∀ f, JFontEntry.font f ∈ entries → validFont f = true →
         f.fName ≠ some n) :
    ∀ (r : Registry) (lg : List LogLevel),
      regFind (entries.foldl processFontEntry (r, lg)).1 n = regFind r n := by
  induction entries with
  | nil => intro r lg; rfl
  | cons e rest ih =>
    intro r lg
    rw [List.foldl_cons]
    have hrest : ∀ f, JFontEntry.font f ∈ rest → validFont f = true →
        f.fName ≠ some n :=
      fun f hf => h f (List.Mem.tail _ hf)
    cases e with
    | null =>
      rw [show processFontEntry (r, lg) JFontEntry.null = (r, lg) from rfl,
          ih hrest]
    | font f =>
      by_cases hv : validFont f = true
      · rw [processFontEntry_font_valid r lg hv, ih hrest, regFind_regSet]
        have hne : ¬ n = f.fName.getD "" := by
          intro hEq
          exact h f (List.Mem.head _) hv (by rw [validFont_name hv, ← hEq])
        rw [if_neg hne]
      · rw [processFontEntry_font_invalid r lg (Bool.eq_false_iff.mpr hv),
            ih hrest]

/-- Keys reachable after `regSet` were present before or are the set key. -/
theorem mem_regKeys_regSet {r : Registry} {k : String} {fi : FontInfo}
    {m : String} (h : m ∈ regKeys (regSet r k fi)) :
    m ∈ regKeys r ∨ m = k := by
  induction r with
  | nil =>
    simp [regSet, regKeys] at h
    exact Or.inr h
  | cons p rest ih =>
    by_cases hp : p.1 = k
    · rw [regSet, if_pos hp] at h
      simp only [regKeys, List.map_cons, List.mem_cons] at h ⊢
      rcases h with h | h
      · exact Or.inr h
      · exact Or.inl (Or.inr h)
    · rw [regSet, if_neg hp] at h
      simp only [regKeys, List.map_cons, List.mem_cons] at h ⊢
      rcases h with h | h
      · exact Or.inl (Or.inl h)
      · rcases ih h with h' | h'
        · exact Or.inl (Or.inr h')
        · exact Or.inr h'

/-- `regSet` preserves distinctness of the registry's keys. -/
theorem regKeys_nodup_regSet {r : Registry} {k : String} {fi : FontInfo}
    (h : (regKeys r).Nodup) : (regKeys (regSet r k fi)).Nodup := by
  induction r with
  | nil => simp [regSet, regKeys]
  | cons p rest ih =>
    rw [regKeys, List.map_cons, List.nodup_cons] at h
    by_cases hp : p.1 = k
    · rw [regSet, if_pos hp, regKeys, List.map_cons, List.nodup_cons]
      exact ⟨hp ▸ h.1, h.2⟩
    · rw [regSet, if_neg hp, regKeys, List.map_cons, List.nodup_cons]
      refine ⟨?_, ih h.2⟩
      intro hmem
      rcases mem_regKeys_regSet hmem with h' | h'
      · exact h.1 h'
      · exact hp h'

/-- The first pass keeps the registry's keys distinct. -/
theorem parseFontList_keys_nodup_aux (entries : List JFontEntry) :
    ∀ (r : Registry) (lg : List LogLevel), (regKeys r).Nodup →
      (regKeys (entries.foldl processFontEntry (r, lg)).1).Nodup := by
  induction entries with
  | nil => intro r lg h; exact h
  | cons e rest ih =>
    intro r lg h
    rw [List.foldl_cons]
    cases e with
    | null =>
      rw [show processFontEntry (r, lg) JFontEntry.null = (r, lg) from rfl]
      exact ih r lg h
    | font f =>
      by_cases hv : validFont f = true
      · rw [processFontEntry_font_valid r lg hv]
        exact ih _ lg (regKeys_nodup_regSet h)
      · rw [processFontEntry_font_invalid r lg (Bool.eq_false_iff.mpr hv)]
        exact ih r _ h

/-- C10: when several valid declarations share a name, the registry ends
the first pass with exactly one entry under that name (keys stay distinct),
holding the metadata of the LAST valid declaration with that name: any
valid declaration `e` named `n` followed only by entries that are not valid
declarations named `n` determines the final entry. -/
theorem parseFonts_duplicate_name_last_wins
    (xs ys : List JFontEntry) (e : JFont) (n : String)
    (hv : validFont e = true) (hn : e.fName = some n)
    (hys : ∀ f, JFontEntry.font f ∈ ys → validFont f = true →
           f.fName ≠ some n) :
    regFind (parseFontList (xs ++ JFontEntry.font e :: ys)).1 n =
      some (fontInfoOf e) ∧
    (regKeys (parseFontList (xs ++ JFontEntry.font e :: ys)).1).Nodup := by
  have hkey : e.fName.getD "" = n := by rw [hn]; rfl
  have hstep : ∀ st : Registry × List LogLevel,
      processFontEntry st (JFontEntry.font e) =
        (regSet st.1 n (fontInfoOf e), st.2) := by
    intro st
    have h1 := processFontEntry_font_valid st.1 st.2 hv
    rw [hkey] at h1
    exact h1
  rw [parseFontList, List.foldl_append, List.foldl_cons, hstep]
  constructor
  · rw [parseFontList_find_untouched ys hys, regFind_regSet, if_pos rfl]
  · exact parseFontList_keys_nodup_aux ys _ _
      (regKeys_nodup_regSet
        (parseFontList_keys_nodup_aux xs [] [] (by simp [regKeys])))

/-- Witness for `parseFonts_duplicate_name_last_wins`: two valid
declarations named "F1"; the final registry holds the second one's
metadata under the single key "F1". -/
theorem parseFonts_duplicate_name_last_wins_witness :
    regFind (parseFontList
      [JFontEntry.font ⟨some "F1", some "FamA", some "Regular", none, none⟩,
       JFontEntry.font ⟨some "F1", some "FamB", some "Bold", some "p",
                        some 75⟩]).1 "F1" =
      some (fontInfoOf ⟨some "F1", some "FamB", some "Bold", some "p",
                        some 75⟩) ∧
    (regKeys (parseFontList
      [JFontEntry.font ⟨some "F1", some "FamA", some "Regular", none, none⟩,
       JFontEntry.font ⟨some "F1", some "FamB", some "Bold", some "p",
                        some 75⟩]).1).Nodup :=
  parseFonts_duplicate_name_last_wins
    [JFontEntry.font ⟨some "F1", some "FamA", some "Regular", none, none⟩] []
    ⟨some "F1", some "FamB", some "Bold", some "p", some 75⟩ "F1"
    (by decide) rfl (by simp)

/-- One glyph-loop iteration never changes any entry's name or resolved
typeface (it only touches the custom builder of the matched font). -/
theorem processChar_preserves_entry (r : Registry) (cache : Option Nat)
    (e : JCharEntry) (j : Nat) :
    ((processChar r cache e).1[j]?).map (fun p => (p.1, p.2.fTypeface)) =
      (r[j]?).map (fun p => (p.1, p.2.fTypeface)) := by
  cases e with
  | null => rfl
  | char c =>
    obtain ⟨cch, cfam, csty, cdata, cw⟩ := c
    cases cch with
    | none => rfl
    | some ch =>
      cases cfam with
      | none => rfl
      | some fam =>
        cases csty with
        | none => rfl
        | some sty =>
          rcases hu : ch.data with _ | ⟨u, _ | ⟨v, tl⟩⟩
          · simp [processChar, hu]
          · simp only [processChar, hu]
            by_cases hf : u.toNat < 65536
            · rw [if_pos hf]
              cases hidx : resolveFontIdx r cache fam sty with
              | none => simp [hidx]
              | some i =>
                simp only [hidx]
                cases hp : parse_glyph_path cdata with
                | none => simp [hp]
                | some path =>
                  simp only [hp]
                  cases hg : r[i]? with
                  | none => simp [hg]
                  | some q =>
                    obtain ⟨name, fi⟩ := q
                    simp only [hg]
                    by_cases hij : i = j
                    · subst hij
                      obtain ⟨hlt, -⟩ := List.getElem?_eq_some_iff.mp hg
                      rw [List.getElem?_set_eq_of_lt _ hlt, hg]
                      rfl
                    · rw [List.getElem?_set_ne hij]
            · rw [if_neg hf]
          · simp [processChar, hu]

/-- The whole glyph loop never changes any entry's name or resolved
typeface. -/
theorem embedLoop_preserves_entry (chars : List JCharEntry) :
    ∀ (st : EmbedState) (j : Nat),
      (((chars.foldl embedStep st).reg[j]?).map
          (fun p => (p.1, p.2.fTypeface))) =
        ((st.reg[j]?).map (fun p => (p.1, p.2.fTypeface))) := by
  induction chars with
  | nil => intro st j; rfl
  | cons c rest ih =>
    intro st j
    rw [List.foldl_cons, ih]
    exact processChar_preserves_entry st.reg st.cache c j

/-- The commit pass leaves already-resolved entries untouched. -/
theorem finalizeEmbedded_preserves {r : Registry} {j : Nat} {name : String}
    {fi : FontInfo} {t : Typeface}
    (hj : r[j]? = some (name, fi)) (ht : fi.fTypeface = some t) :
    (finalizeEmbedded r).1[j]? = some (name, fi) := by
  simp only [finalizeEmbedded]
  rw [List.getElem?_map, hj]
  simp [ht]

/-- The native pass skips a font whose typeface is already set. -/
theorem resolveNativeOne_resolved {m : FontMgr} {name : String}
    {fi : FontInfo} {t : Typeface} (ht : fi.fTypeface = some t) :
    resolveNativeOne m name fi = (fi, false) := by
  simp [resolveNativeOne, ht]

/-- C5: resolution is monotonic — an entry whose `fTypeface` is already
non-null is left with exactly that typeface by the native resolution pass,
and by the full embedded pass (glyph loop plus finalization). -/
theorem resolution_monotonic (m : FontMgr) (chars : List JCharEntry)
    (r : Registry) (i : Nat) (name : String) (fi : FontInfo) (t : Typeface)
    (hget : r[i]? = some (name, fi)) (ht : fi.fTypeface = some t) :
    ((resolveNativeTypefaces m r).1[i]? = some (name, fi)) ∧
    (∃ fi', (resolveEmbeddedTypefaces chars r).1[i]? = some (name, fi') ∧
        fi'.fTypeface = some t) := by
  constructor
  · simp only [resolveNativeTypefaces]
    rw [List.getElem?_map, hget]
    simp [resolveNativeOne_resolved ht]
  · have hloop := embedLoop_preserves_entry chars ⟨r, none, []⟩ i
    rw [hget] at hloop
    simp only [Option.map_some'] at hloop
    rw [Option.map_eq_some'] at hloop
    obtain ⟨q, hq, hq2⟩ := hloop
    obtain ⟨qn, qi⟩ := q
    simp only [Prod.mk.injEq] at hq2
    refine ⟨qi, ?_, by rw [hq2.2, ht]⟩
    show (finalizeEmbedded (chars.foldl embedStep ⟨r, none, []⟩).reg).1[i]?
        = some (name, qi)
    rw [← hq2.1]
    exact finalizeEmbedded_preserves hq (by rw [hq2.2, ht])

/-- Witness for `resolution_monotonic` at a one-entry registry whose font
is already resolved. -/
theorem resolution_monotonic_witness :
    ((resolveNativeTypefaces trivialFontMgr
        [("F1", ⟨"Roboto", "Regular", "", 0,
                 some (Typeface.fromData "F1" ""), []⟩)]).1[0]? =
      some ("F1", ⟨"Roboto", "Regular", "", 0,
                   some (Typeface.fromData "F1" ""), []⟩)) ∧
    (∃ fi', (resolveEmbeddedTypefaces []
        [("F1", ⟨"Roboto", "Regular", "", 0,
                 some (Typeface.fromData "F1" ""), []⟩)]).1[0]? =
      some ("F1", fi') ∧ fi'.fTypeface = some (Typeface.fromData "F1" "")) :=
  resolution_monotonic trivialFontMgr []
    [("F1", ⟨"Roboto", "Regular", "", 0,
             some (Typeface.fromData "F1" ""), []⟩)] 0 "F1"
    ⟨"Roboto", "Regular", "", 0, some (Typeface.fromData "F1" ""), []⟩
    (Typeface.fromData "F1" "") rfl rfl

/-- C8: when glyph data is present, the builder prefers embedded fonts, and
the embedded pass fully resolves every font, `parseFonts` stops after the
embedded pass — the native typeface resolution pass is never invoked. -/
theorem parseFonts_embedded_success_skips_native (m : FontMgr)
    (entries : List JFontEntry) (chars : List JCharEntry)
    (hok : (resolveEmbeddedTypefaces chars (parseFontList entries).1).2
           = true) :
    (parseFonts m true (some entries) (some chars)).2 = [Pass.embedded] ∧
    Pass.native ∉ (parseFonts m true (some entries) (some chars)).2 := by
  have h1 : parseFonts m true (some entries) (some chars) =
      ((resolveEmbeddedTypefaces chars (parseFontList entries).1).1,
       [Pass.embedded]) := by
    show (if (resolveEmbeddedTypefaces chars (parseFontList entries).1).2
             = true
          then ((resolveEmbeddedTypefaces chars (parseFontList entries).1).1,
                [Pass.embedded])
          else ((resolveNativeTypefaces m
                  (resolveEmbeddedTypefaces chars
                    (parseFontList entries).1).1).1,
                [Pass.embedded, Pass.native])) =
        ((resolveEmbeddedTypefaces chars (parseFontList entries).1).1,
         [Pass.embedded])
    rw [if_pos hok]
  rw [h1]
  exact ⟨rfl, by simp⟩

/-- Witness for `parseFonts_embedded_success_skips_native`: with an empty
font list and empty glyph list the embedded pass trivially succeeds, and
only the embedded pass runs. -/
theorem parseFonts_embedded_success_skips_native_witness :
    (parseFonts trivialFontMgr true (some []) (some [])).2 =
      [Pass.embedded] ∧
    Pass.native ∉ (parseFonts trivialFontMgr true (some []) (some [])).2 :=
  parseFonts_embedded_success_skips_native trivialFontMgr [] [] rfl

/-- C9: an accepted glyph record is stored in the owning font's custom
builder with BOTH the advance and the outline scaled by exactly
`kPtScale = 0.01`: the stored advance is `w * 0.01 = w / 100` and every
stored outline point is the parsed point divided by 100. -/
theorem embedded_glyph_scaled (r : Registry) (cache : Option Nat) (c : JChar)
    (u : Char) (fam sty : String) (i : Nat) (name : String) (fi : FontInfo)
    (path : Path)
    (hch : c.ch = some (String.mk [u]))
    (hfits : u.toNat < 65536)
    (hfam : c.fFamily = some fam) (hsty : c.style = some sty)
    (hidx : resolveFontIdx r cache fam sty = some i)
    (hget : r[i]? = some (name, fi))
    (hpath : parse_glyph_path c.data = some path) :
    (processChar r cache (JCharEntry.char c)).1 =
      r.set i (name, { fi with fCustomBuilder := fi.fCustomBuilder ++
        [(u.toNat, c.w.getD 0 * kPtScale, scalePath kPtScale path)] }) ∧
    c.w.getD 0 * kPtScale = c.w.getD 0 / 100 ∧
    scalePath kPtScale path = path.map (fun q => (q.1 / 100, q.2 / 100)) := by
  refine ⟨?_, ?_, ?_⟩
  · simp only [processChar, hch, hfam, hsty, hidx, hpath, hget, if_pos hfits]
  · rw [kPtScale, mul_one_div]
  · have hfun : (fun q : ℚ × ℚ => (kPtScale * q.1, kPtScale * q.2)) =
        fun q : ℚ × ℚ => (q.1 / 100, q.2 / 100) := by
      funext q
      rw [kPtScale, one_div_mul_eq_div, one_div_mul_eq_div]
    rw [scalePath, hfun]

/-- Witness for `embedded_glyph_scaled`: a glyph record with advance
`w = 32.67` is stored with advance `0.3267`. -/
theorem embedded_glyph_scaled_witness :
    (processChar [("F1", fiW)] none (JCharEntry.char cW)).1 =
      [("F1", fiW)].set 0 ("F1", { fiW with fCustomBuilder :=
        fiW.fCustomBuilder ++
          [(Char.toNat 't', cW.w.getD 0 * kPtScale,
            scalePath kPtScale [])] }) ∧
    cW.w.getD 0 * kPtScale = 3267 / 10000 :=
  ⟨(embedded_glyph_scaled [("F1", fiW)] none cW 't' "Fam" "Sty" 0 "F1" fiW []
      rfl (by decide) rfl rfl (by decide) rfl rfl).1,
   by norm_num [cW, kPtScale]⟩

end Skottie
